import Mathlib

/-!
Verification of the sparse-compression decoder logic of
`src/examples/sparse/compress.py` (`read_n`, `sc_decode_header`,
`sc_decode_block`, `sc_stats`), together with a spec-modelled encoder and
reconstructor (`sc_encode`, `sc_decode`) for the round-trip law.

The byte stream is embedded as a `List Nat` (Python `bytes` yields values
0–255; hypotheses state the 0–255 bound where a proof needs it).  Python
exceptions become the `Err` inductive, one constructor per raise site.
-/

/-- The exceptions the Python code can raise, one constructor per raise
site, plus the `FormatError`s of the spec-modelled reconstructor. -/
inductive Err where
  /-- `next()` on an exhausted stream (`StopIteration`). -/
  | stopIteration
  /-- the `ValueError("read %d bytes got negative value")` in `read_n`. -/
  | negativeValue
  /-- the `ValueError("invalid header: ...")` in `sc_decode_header`. -/
  | invalidHeader (head : Nat)
  /-- the `ValueError("Invalid block head: ...")` in `sc_decode_block`. -/
  | invalidBlockHead (head : Nat)
  /-- the `assert stop` in `sc_stats`, which fires exactly when bytes remain
  after the stop marker (the spec calls this condition `TrailingData`). -/
  | assertionError
  /-- `FormatError(Truncated)` of the spec-modelled reconstructor. -/
  | truncated
  /-- `FormatError(TrailingData)` of the spec-modelled reconstructor. -/
  | trailingData
  /-- `FormatError(LengthMismatch)` of the spec-modelled reconstructor. -/
  | lengthMismatch
  deriving DecidableEq

/-- The little-endian integer denoted by a list of bytes: byte `j`
contributes `byte[j] * 256^j`. -/
def leValN : List Nat → Nat
  | [] => 0
  | b :: r => b + 256 * leValN r

/-- The loop of `read_n`: `for j in range(n): i |= next(stream) << 8*j`,
followed by the `if i < 0` check.  The accumulator is a Python int,
embedded as `Int`; stream bytes are `Nat`, so `next(stream) << 8*j` is a
`Nat` shift cast into the accumulator's `Int.lor`. -/
def read_n_loop : Nat → Nat → Int → List Nat → Except Err (Int × List Nat)
  | 0, _, i, s => if i < 0 then .error .negativeValue else .ok (i, s)
  | _ + 1, _, _, [] => .error .stopIteration
  | m + 1, j, i, b :: s => read_n_loop m (j + 1) (Int.lor i (Int.ofNat (b <<< (8 * j)))) s

/-- `read_n(n, stream)` from `compress.py` lines 21–27. -/
def read_n (n : Nat) (s : List Nat) : Except Err (Int × List Nat) :=
  read_n_loop n 0 0 s

/-- `sc_decode_header(stream)` from `compress.py` lines 29–36.  Returns the
endianness string, `nbits`, and the rest of the stream. -/
def sc_decode_header (s : List Nat) : Except Err (String × Int × List Nat) :=
  match s with
  | [] => .error .stopIteration
  | head :: rest =>
    if head &&& 0xe0 ≠ 0 then .error (.invalidHeader head)
    else
      match read_n (head &&& 0x0f) rest with
      | .error e => .error e
      | .ok (nbits, rest2) =>
        .ok (if head &&& 0x10 ≠ 0 then "big" else "little", nbits, rest2)

/-- The per-type block tally of `sc_stats` (the `Counter` under the
`'blocks'` key). -/
abbrev Blocks := Nat → Nat

/-- The common tail of the non-terminator branches of `sc_decode_block`:
`stats['blocks'][n] += 1`, then `size = max(1, n) * k` and
`next(islice(stream, size, size), None)`, which skips at most `size`
bytes (`List.drop` saturates just as `islice` does). -/
def sc_block_tally (n k : Nat) (rest : List Nat) (b : Blocks) :
    Except Err (Bool × List Nat × Blocks) :=
  .ok (true, rest.drop (max 1 n * k), Function.update b n (b n + 1))

/-- `sc_decode_block(stream, stats)` from `compress.py` lines 38–61.
Returns `false` on the stop byte; otherwise tallies the block type and
skips the block data. -/
def sc_decode_block (s : List Nat) (b : Blocks) :
    Except Err (Bool × List Nat × Blocks) :=
  match s with
  | [] => .error .stopIteration
  | head :: rest =>
    if head = 0 then .ok (false, rest, b)
    else if head ≤ 0x80 then sc_block_tally 0 head rest b
    else if 0xa0 ≤ head ∧ head < 0xc0 then sc_block_tally 1 (head - 0xa0) rest b
    else if 0xc2 ≤ head ∧ head ≤ 0xc4 then
      match rest with
      | [] => .error .stopIteration
      | k :: rest2 => sc_block_tally (head - 0xc0) k rest2 b
    else .error (.invalidBlockHead head)

/-- The `while sc_decode_block(stream, stats): pass` loop of `sc_stats`.
Every iteration consumes at least one byte, so the loop is embedded with a
fuel bound; `sc_stats` passes `stream.length + 1`, which is never
exhausted (`scLoopF_fuel` below). -/
def scLoopF : Nat → List Nat → Blocks → Except Err (Blocks × List Nat)
  | 0, _, _ => .error .stopIteration
  | fuel + 1, s, b =>
    match sc_decode_block s b with
    | .error e => .error e
    | .ok (false, s', b') => .ok (b', s')
    | .ok (true, s', b') => scLoopF fuel s' b'

/-- The dict returned by `sc_stats`. -/
structure Stats where
  endian : String
  nbits : Int
  blocks : Blocks

/-- `sc_stats(stream)` from `compress.py` lines 63–88: decode the header,
loop over blocks, then `assert` that the stream is exhausted. -/
def sc_stats (stream : List Nat) : Except Err Stats :=
  match sc_decode_header stream with
  | .error e => .error e
  | .ok (endian, nbits, rest) =>
    match scLoopF (rest.length + 1) rest (fun _ => 0) with
    | .error e => .error e
    | .ok (blocks, rem) =>
      if rem = [] then .ok ⟨endian, nbits, blocks⟩ else .error .assertionError

/-! ### Spec-modelled encoder and reconstructor

`sc_encode`/`sc_decode` are `bitarray.util` library functions; their code is
not under `src/` (only `sc_stats` and the tests call them), so they are
modelled from the spec (§4.1, §4.3, §4.5).  A bit sequence is a
`List Bool`. -/

/-- Modelled from the spec (§4.3): the value of up to eight bits packed
into one payload byte, bit `i` contributing `2^i`. -/
def byteOfBits : List Bool → Nat
  | [] => 0
  | bit :: r => (cond bit 1 0) + 2 * byteOfBits r

/-- Modelled from the spec (§4.5): the `k` low bits of a payload byte,
least significant first. -/
def bitsOfByteAux : Nat → Nat → List Bool
  | 0, _ => []
  | k + 1, v => decide (v % 2 = 1) :: bitsOfByteAux k (v / 2)

/-- Modelled from the spec (§4.5): a Raw payload appended verbatim as
bits, eight per byte. -/
def bitsOfBytes : List Nat → List Bool
  | [] => []
  | v :: r => bitsOfByteAux 8 v ++ bitsOfBytes r

/-- Modelled from the spec (§4.3): pack a bit sequence into payload
bytes, eight bits per byte, the last byte zero-padded.  Fuel-bounded
recursion (each step consumes at least one bit, so `a.length` fuel is
enough). -/
def bytesOfBitsF : Nat → List Bool → List Nat
  | _, [] => []
  | 0, _ => []
  | f + 1, a => byteOfBits (a.take 8) :: bytesOfBitsF f (a.drop 8)

/-- Modelled from the spec (§4.1): the minimal little-endian byte encoding
of `nbits`, at most `f` bytes (`sc_encode` passes 15, the format's cap). -/
def bytesLE : Nat → Nat → List Nat
  | 0, _ => []
  | f + 1, n => if n = 0 then [] else n % 256 :: bytesLE f (n / 256)

/-- Modelled from the spec (§4.3): partition the payload bytes into Raw
blocks of at most 128 bytes, each preceded by its head byte (the byte
count itself).  Fuel-bounded (each step consumes at least one byte). -/
def encBlocksF : Nat → List Nat → List Nat
  | _, [] => []
  | 0, _ => []
  | f + 1, l => min 128 l.length :: (l.take 128 ++ encBlocksF f (l.drop 128))

/-- Modelled from the spec (§4.1, §4.3): `sc_encode` is absent from
`src/`; we model a conforming encoder that emits the header (endianness
flag 0, i.e. little-endian, and the minimal length field), then Raw
blocks only — §4.3 allows any segmentation strategy satisfying the size
limits and the round-trip law — then the stop marker. -/
def sc_encode (a : List Bool) : List Nat :=
  let lenBytes := bytesLE 15 a.length
  let bytes := bytesOfBitsF a.length a
  (lenBytes.length :: lenBytes) ++ encBlocksF bytes.length bytes ++ [0]

/-- Modelled from the spec (§4.2, §4.5): the reconstructor's block loop.
It collects Raw payload bytes (failing with `Truncated` when fewer than
`payload_size` bytes remain) until the stop marker.  Positions heads are
rejected: the modelled encoder never emits them, and the spec (§4.5, §9)
leaves their payload representation to the encoder's choice.
Fuel-bounded (each step consumes at least one byte). -/
def decBlocksF : Nat → List Nat → Except Err (List Nat × List Nat)
  | 0, _ => .error .stopIteration
  | _ + 1, [] => .error .stopIteration
  | _ + 1, 0 :: rest => .ok ([], rest)
  | f + 1, (h + 1) :: rest =>
    if h + 1 ≤ 0x80 then
      if rest.length < h + 1 then .error .truncated
      else
        match decBlocksF f (rest.drop (h + 1)) with
        | .error e => .error e
        | .ok (payload, rem) => .ok (rest.take (h + 1) ++ payload, rem)
    else .error (.invalidBlockHead (h + 1))

/-- Modelled from the spec (§4.5): `sc_decode` is absent from `src/`; we
model the reconstructor: decode the header (reusing the embedded
`sc_decode_header`), collect the Raw payloads, check for trailing data,
and truncate the zero-padding of the last payload byte down to `nbits`
bits (a shortfall or an excess of eight or more bits is a
`LengthMismatch`). -/
def sc_decode (s : List Nat) : Except Err (List Bool) :=
  match sc_decode_header s with
  | .error e => .error e
  | .ok (_, nbitsI, rest) =>
    let nbits := nbitsI.toNat
    match decBlocksF (rest.length + 1) rest with
    | .error e => .error e
    | .ok (payload, rem) =>
      if rem = [] then
        if nbits ≤ 8 * payload.length ∧ 8 * payload.length < nbits + 8 then
          .ok ((bitsOfBytes payload).take nbits)
        else .error .lengthMismatch
      else .error .trailingData

/-! ### Helper lemmas -/

/-- Disjoint bitwise-or is addition: `i |= b << k` adds `b * 2^k` when the
accumulator fits below bit `k`. -/
theorem lor_shiftLeft_eq_add {a : Nat} (b k : Nat) (h : a < 2 ^ k) :
    a ||| (b <<< k) = a + b * 2 ^ k := by
  rw [Nat.shiftLeft_eq, Nat.lor_comm, Nat.mul_comm b (2 ^ k),
    ← Nat.mul_add_lt_is_or h b]
  omega

theorem read_n_loop_ok : ∀ (n : Nat) (s : List Nat) (j v : Nat),
    n ≤ s.length → (∀ x ∈ s.take n, x < 256) → v < 2 ^ (8 * j) →
    read_n_loop n j (Int.ofNat v) s =
      .ok (Int.ofNat (v + leValN (s.take n) * 2 ^ (8 * j)), s.drop n) := by
  intro n
  induction n with
  | zero => intro s j v _ _ _; simp [read_n_loop, leValN]
  | succ m ih =>
    intro s j v hlen hbytes hv
    match s with
    | [] => simp at hlen
    | x :: s' =>
      have hx : x < 256 := hbytes x (by simp)
      have hcast : Int.lor (Int.ofNat v) (Int.ofNat (x <<< (8 * j))) =
          Int.ofNat (v ||| (x <<< (8 * j))) := rfl
      have hstep : v ||| (x <<< (8 * j)) = v + x * 2 ^ (8 * j) :=
        lor_shiftLeft_eq_add x (8 * j) hv
      have hpow : (2 : Nat) ^ (8 * (j + 1)) = 2 ^ (8 * j) * 256 := by
        rw [Nat.mul_add, pow_add]; norm_num
      have hv' : v + x * 2 ^ (8 * j) < 2 ^ (8 * (j + 1)) := by
        rw [hpow]
        have h1 : v + x * 2 ^ (8 * j) < (x + 1) * 2 ^ (8 * j) := by
          have := Nat.two_pow_pos (8 * j); nlinarith
        have h2 : (x + 1) * 2 ^ (8 * j) ≤ 256 * 2 ^ (8 * j) :=
          Nat.mul_le_mul_right _ (by omega)
        omega
      have hrec := ih s' (j + 1) (v + x * 2 ^ (8 * j)) (by simpa using hlen)
        (fun y hy => hbytes y (by simp [hy])) hv'
      have harith : v + x * 2 ^ (8 * j) + leValN (s'.take m) * 2 ^ (8 * (j + 1))
          = v + (x + 256 * leValN (s'.take m)) * 2 ^ (8 * j) := by
        rw [hpow]; ring
      simp only [read_n_loop, hcast, hstep, hrec, harith, List.take_succ_cons,
        List.drop_succ_cons, leValN]

theorem read_n_loop_short : ∀ (n : Nat) (s : List Nat) (j : Nat) (i : Int),
    s.length < n → read_n_loop n j i s = .error .stopIteration := by
  intro n
  induction n with
  | zero => intro s j i h; simp at h
  | succ m ih =>
    intro s j i h
    match s with
    | [] => rfl
    | x :: s' => exact ih s' (j + 1) _ (by simpa using h)

theorem read_n_loop_ne_negative : ∀ (n : Nat) (s : List Nat) (j v : Nat),
    read_n_loop n j (Int.ofNat v) s ≠ .error .negativeValue := by
  intro n
  induction n with
  | zero =>
    intro s j v
    have : ¬ (Int.ofNat v < 0) := Int.not_lt.mpr (Int.natCast_nonneg v)
    simp [read_n_loop, this]
  | succ m ih =>
    intro s j v
    match s with
    | [] => simp [read_n_loop]
    | x :: s' =>
      have hcast : Int.lor (Int.ofNat v) (Int.ofNat (x <<< (8 * j))) =
          Int.ofNat (v ||| (x <<< (8 * j))) := rfl
      simpa [read_n_loop, hcast] using ih s' (j + 1) (v ||| (x <<< (8 * j)))

theorem read_n_ok (n : Nat) (s : List Nat) (hlen : n ≤ s.length)
    (hbytes : ∀ x ∈ s.take n, x < 256) :
    read_n n s = .ok (Int.ofNat (leValN (s.take n)), s.drop n) := by
  have := read_n_loop_ok n s 0 0 hlen hbytes (by norm_num)
  simpa [read_n] using this

set_option maxRecDepth 4096 in
/-- Bit 4 of a byte is set iff `head &&& 0x10` is nonzero. -/
theorem and10_testBit : ∀ x : Fin 256, (x.val &&& 0x10 ≠ 0) ↔ x.val.testBit 4 := by
  decide

/-- The facts about a length nibble `L ≤ 15` needed for header decoding. -/
theorem nibble_facts : ∀ L : Nat, L ≤ 15 →
    L &&& 0xe0 = 0 ∧ L &&& 0x10 = 0 ∧ L &&& 0x0f = L := by
  intro L hL
  interval_cases L <;> decide

/-! ### Claim theorems -/

/-- C1: one block-decoding step classifies the leading head byte: `0x00`
is the terminator with no payload and no tally; `1 ≤ head ≤ 0x80` is a
Raw block (type 0) with payload size `head`; `0xA0 ≤ head ≤ 0xBF` is a
Positions width-1 block (type 1) with payload size `head - 0xA0`;
`0xC2 ≤ head ≤ 0xC4` is a Positions block of width `head - 0xC0`
(type 2, 3 or 4) that reads one extra count byte and has payload size
`(head - 0xC0) * count`; each non-terminator block bumps exactly its own
type's tally by one. -/
theorem c1_block_classification (rest : List Nat) (b : Blocks) :
    sc_decode_block (0 :: rest) b = .ok (false, rest, b) ∧
    (∀ head, 1 ≤ head → head ≤ 0x80 →
      sc_decode_block (head :: rest) b =
        .ok (true, rest.drop head, Function.update b 0 (b 0 + 1))) ∧
    (∀ head, 0xa0 ≤ head → head ≤ 0xbf →
      sc_decode_block (head :: rest) b =
        .ok (true, rest.drop (head - 0xa0), Function.update b 1 (b 1 + 1))) ∧
    (∀ head k, 0xc2 ≤ head → head ≤ 0xc4 →
      sc_decode_block (head :: k :: rest) b =
        .ok (true, rest.drop ((head - 0xc0) * k),
          Function.update b (head - 0xc0) (b (head - 0xc0) + 1))) := by
  refine ⟨?_, ?_, ?_, ?_⟩
  · simp [sc_decode_block]
  · intro head h1 h2
    simp only [sc_decode_block, sc_block_tally]
    rw [if_neg (show ¬ head = 0 by omega), if_pos h2,
      show (max 1 0 : Nat) = 1 by decide, one_mul]
  · intro head h1 h2
    simp only [sc_decode_block, sc_block_tally]
    rw [if_neg (show ¬ head = 0 by omega), if_neg (show ¬ head ≤ 0x80 by omega),
      if_pos (show 0xa0 ≤ head ∧ head < 0xc0 by omega),
      show (max 1 1 : Nat) = 1 by decide, one_mul]
  · intro head k h1 h2
    simp only [sc_decode_block, sc_block_tally]
    rw [if_neg (show ¬ head = 0 by omega), if_neg (show ¬ head ≤ 0x80 by omega),
      if_neg (show ¬ (0xa0 ≤ head ∧ head < 0xc0) by omega),
      if_pos (show 0xc2 ≤ head ∧ head ≤ 0xc4 by omega),
      max_eq_right (by omega : 1 ≤ head - 0xc0)]

/-- Witness for C1 at concrete inputs, one per head class. -/
theorem c1_block_classification_witness :
    sc_decode_block [0, 7] (fun _ => 0) = .ok (false, [7], fun _ => 0) ∧
    sc_decode_block [0x02, 7, 7, 7] (fun _ => 0) =
      .ok (true, [7], Function.update (fun _ => 0) 0 1) ∧
    sc_decode_block [0xa2, 7, 7, 7] (fun _ => 0) =
      .ok (true, [7], Function.update (fun _ => 0) 1 1) ∧
    sc_decode_block [0xc3, 1, 7, 7, 7] (fun _ => 0) =
      .ok (true, [], Function.update (fun _ => 0) 3 1) :=
  ⟨(c1_block_classification [7] (fun _ => 0)).1,
   (c1_block_classification [7, 7, 7] (fun _ => 0)).2.1 2 (by decide) (by decide),
   (c1_block_classification [7, 7, 7] (fun _ => 0)).2.2.1 0xa2 (by decide) (by decide),
   (c1_block_classification [7, 7, 7] (fun _ => 0)).2.2.2 0xc3 1 (by decide) (by decide)⟩

/-- C3 counterexample: a Raw block declaring a 2-byte payload on a stream
with no remaining payload bytes does not fail with a Truncated error — it
skips what is there and returns success. -/
theorem c3_truncation_counterexample :
    sc_decode_block [0x02] (fun _ => 0) =
      .ok (true, [], Function.update (fun _ => 0) 0 1) ∧
    sc_decode_block [0x02] (fun _ => 0) ≠ Except.error Err.truncated := by
  have h : sc_decode_block [0x02] (fun _ => 0) =
      .ok (true, [], Function.update (fun _ => 0) 0 1) := rfl
  exact ⟨h, fun hc => Except.noConfusion (h.symm.trans hc)⟩

/-- C3 amended: `sc_decode_block` advances past `min(payload_size,
remaining)` bytes.  When fewer than `payload_size` bytes remain it does
not fail: it consumes the remainder and returns success (first conjunct,
shown for Raw blocks); no call ever raises a Truncated error (second
conjunct) — exhaustion surfaces only later, as `StopIteration`, when the
next head byte is read. -/
theorem c3_truncation_amended :
    (∀ head rest b, 1 ≤ head → head ≤ 0x80 → rest.length < head →
      sc_decode_block (head :: rest) b =
        .ok (true, [], Function.update b 0 (b 0 + 1))) ∧
    (∀ s b, sc_decode_block s b ≠ Except.error Err.truncated) := by
  constructor
  · intro head rest b h1 h2 h3
    simp only [sc_decode_block, sc_block_tally]
    rw [if_neg (show ¬ head = 0 by omega), if_pos h2,
      show (max 1 0 : Nat) = 1 by decide, one_mul,
      List.drop_eq_nil_of_le (by omega : rest.length ≤ head)]
  · intro s b
    match s with
    | [] => simp [sc_decode_block]
    | head :: rest =>
      simp only [sc_decode_block, sc_block_tally]
      split_ifs
      · simp
      · simp
      · simp
      · cases rest <;> simp
      · simp

/-- Witness for C3's amended theorem. -/
theorem c3_truncation_amended_witness :
    (1 ≤ 5 ∧ 5 ≤ 0x80 ∧ ([7, 7] : List Nat).length < 5) ∧
    sc_decode_block [5, 7, 7] (fun _ => 0) =
      .ok (true, [], Function.update (fun _ => 0) 0 1) ∧
    sc_decode_block [0x05] (fun _ => 0) ≠ Except.error Err.truncated :=
  ⟨⟨by decide, by decide, by decide⟩,
   c3_truncation_amended.1 5 [7, 7] (fun _ => 0) (by decide) (by decide) (by decide),
   c3_truncation_amended.2 [0x05] (fun _ => 0)⟩

/-- C4 counterexample: a header byte with length nibble 1 followed by an
empty stream fails with plain stream exhaustion (`StopIteration`), not
with the NegativeLength (negative-value) error. -/
theorem c4_negative_length_counterexample :
    sc_decode_header [0x01] = Except.error Err.stopIteration ∧
    sc_decode_header [0x01] ≠ Except.error Err.negativeValue := by
  have h : sc_decode_header [0x01] = Except.error Err.stopIteration := rfl
  exact ⟨h, fun hc => Err.noConfusion (Except.error.inj (h.symm.trans hc))⟩

/-- C4 amended: when the length nibble `L` exceeds the remaining stream
length, header decoding fails with stream exhaustion (`StopIteration`,
the `next()` call inside `read_n` running dry); the NegativeLength
(negative-value) branch of `read_n` never fires. -/
theorem c4_negative_length_amended :
    ∀ head rest, head &&& 0xe0 = 0 → rest.length < head &&& 0x0f →
      sc_decode_header (head :: rest) = Except.error Err.stopIteration := by
  intro head rest h0 hlen
  simp only [sc_decode_header, read_n]
  rw [if_neg (by simpa using h0), read_n_loop_short _ _ _ _ hlen]

/-- Witness for C4's amended theorem. -/
theorem c4_negative_length_amended_witness :
    (0x01 &&& 0xe0 = 0 ∧ ([] : List Nat).length < 0x01 &&& 0x0f) ∧
    sc_decode_header [0x01] = Except.error Err.stopIteration :=
  ⟨⟨by decide, by decide⟩,
   c4_negative_length_amended 0x01 [] (by decide) (by decide)⟩

/-- C6: a header byte with any of its top three bits set is rejected with
the invalid-header error, whatever follows it in the stream (the
quantification over `rest` shows no further byte is consumed or
inspected). -/
theorem c6_invalid_header (head : Nat) (rest : List Nat)
    (h : head &&& 0xe0 ≠ 0) :
    sc_decode_header (head :: rest) = Except.error (Err.invalidHeader head) := by
  simp only [sc_decode_header]
  rw [if_pos h]

/-- Witness for C6. -/
theorem c6_invalid_header_witness :
    (0xff &&& 0xe0 ≠ 0) ∧
    sc_decode_header [0xff, 1, 2] = Except.error (Err.invalidHeader 0xff) :=
  ⟨by decide, c6_invalid_header 0xff [1, 2] (by decide)⟩

/-- C7: every head byte in the reserved ranges 0x81–0x9F, 0xC0–0xC1 and
0xC5–0xFF makes `sc_decode_block` fail with the invalid-block-head error
carrying that byte; the equation holds for every `rest` and every tally
`b`, so no tally is bumped and no payload byte is consumed. -/
theorem c7_reserved_block_heads (head : Nat) (rest : List Nat) (b : Blocks)
    (h : (0x81 ≤ head ∧ head ≤ 0x9f) ∨ head = 0xc0 ∨ head = 0xc1 ∨
      (0xc5 ≤ head ∧ head ≤ 0xff)) :
    sc_decode_block (head :: rest) b =
      Except.error (Err.invalidBlockHead head) := by
  simp only [sc_decode_block]
  rw [if_neg (show ¬ head = 0 by omega), if_neg (show ¬ head ≤ 0x80 by omega),
    if_neg (show ¬ (0xa0 ≤ head ∧ head < 0xc0) by omega),
    if_neg (show ¬ (0xc2 ≤ head ∧ head ≤ 0xc4) by omega)]

/-- Witness for C7, at one head from each reserved range. -/
theorem c7_reserved_block_heads_witness :
    sc_decode_block [0x81, 9] (fun _ => 0) =
      Except.error (Err.invalidBlockHead 0x81) ∧
    sc_decode_block [0xc0, 9] (fun _ => 0) =
      Except.error (Err.invalidBlockHead 0xc0) ∧
    sc_decode_block [0xc1, 9] (fun _ => 0) =
      Except.error (Err.invalidBlockHead 0xc1) ∧
    sc_decode_block [0xff, 9] (fun _ => 0) =
      Except.error (Err.invalidBlockHead 0xff) :=
  ⟨c7_reserved_block_heads 0x81 [9] (fun _ => 0) (by omega),
   c7_reserved_block_heads 0xc0 [9] (fun _ => 0) (by omega),
   c7_reserved_block_heads 0xc1 [9] (fun _ => 0) (by omega),
   c7_reserved_block_heads 0xff [9] (fun _ => 0) (by omega)⟩

/-- C9: for streams of byte values (0–255), the accumulator of `read_n`
stays nonnegative, so the negative-value error branch is unreachable —
the first conjunct holds for every stream of naturals and every `n` —
and with enough bytes `read_n` returns exactly the little-endian integer
of the `n` bytes it consumed. -/
theorem c9_read_n_nonnegative :
    (∀ n s, read_n n s ≠ Except.error Err.negativeValue) ∧
    (∀ n s, n ≤ s.length → (∀ x ∈ s.take n, x < 256) →
      read_n n s = .ok (Int.ofNat (leValN (s.take n)), s.drop n)) :=
  ⟨fun n s => read_n_loop_ne_negative n s 0 0,
   fun n s h1 h2 => read_n_ok n s h1 h2⟩

/-- Witness for C9: `read_n 2` on bytes `[1, 2]` yields `513 = 1 + 2*256`. -/
theorem c9_read_n_nonnegative_witness :
    read_n 7 [1] ≠ Except.error Err.negativeValue ∧
    (2 ≤ ([1, 2, 99] : List Nat).length ∧ ∀ x ∈ ([1, 2, 99] : List Nat).take 2, x < 256) ∧
    read_n 2 [1, 2, 99] = .ok (Int.ofNat 513, [99]) :=
  ⟨c9_read_n_nonnegative.1 7 [1],
   ⟨by decide, by decide⟩,
   c9_read_n_nonnegative.2 2 [1, 2, 99] (by decide) (by decide)⟩

/-- C5: for a first byte `head` (a byte, so `< 256`) with its top three
bits clear, header decoding returns big-endian iff bit 4 of `head` is
set, and `nbits` is the little-endian integer of the next
`L = head &&& 0x0F` bytes; the remaining stream starts after those `L`
bytes.  In particular `L = 0` gives `nbits = 0` with no length bytes
consumed (`take 0 = []`, `drop 0` leaves `rest` unchanged). -/
theorem c5_header_decoding (head : Nat) (rest : List Nat)
    (h256 : head < 256) (h0 : head &&& 0xe0 = 0)
    (hlen : head &&& 0x0f ≤ rest.length)
    (hbytes : ∀ x ∈ rest.take (head &&& 0x0f), x < 256) :
    sc_decode_header (head :: rest) =
      .ok (if head.testBit 4 then "big" else "little",
        Int.ofNat (leValN (rest.take (head &&& 0x0f))),
        rest.drop (head &&& 0x0f)) := by
  simp only [sc_decode_header]
  rw [if_neg (by simpa using h0), read_n_ok _ _ hlen hbytes]
  have hbit : (head &&& 0x10 ≠ 0) ↔ head.testBit 4 := and10_testBit ⟨head, h256⟩
  by_cases hb : head.testBit 4
  · rw [if_pos (hbit.mpr hb), if_pos hb]
  · rw [if_neg (fun hc => hb (hbit.mp hc)), if_neg hb]

/-- Witness for C5: head `0x11` declares big-endian order and one length
byte; the byte `0x2a` gives `nbits = 42`. -/
theorem c5_header_decoding_witness :
    (0x11 < 256 ∧ 0x11 &&& 0xe0 = 0 ∧ 0x11 &&& 0x0f ≤ ([0x2a] : List Nat).length ∧
      ∀ x ∈ ([0x2a] : List Nat).take (0x11 &&& 0x0f), x < 256) ∧
    sc_decode_header [0x11, 0x2a] = .ok ("big", Int.ofNat 42, []) :=
  ⟨⟨by decide, by decide, by decide, by decide⟩,
   c5_header_decoding 0x11 [0x2a] (by decide) (by decide) (by decide) (by decide)⟩

/-- C8: once the block loop has returned (which it only does after
reading the `0x00` stop marker), `sc_stats` checks the remainder of the
stream: a nonempty remainder fails with the assertion error (the spec's
TrailingData), an empty one returns the stats record with the decoded
endianness, `nbits` and per-type counts. -/
theorem c8_trailing_check (stream : List Nat) (endian : String) (nbits : Int)
    (rest : List Nat) (blocks : Blocks) (rem : List Nat)
    (h1 : sc_decode_header stream = .ok (endian, nbits, rest))
    (h2 : scLoopF (rest.length + 1) rest (fun _ => 0) = .ok (blocks, rem)) :
    (rem ≠ [] → sc_stats stream = Except.error Err.assertionError) ∧
    (rem = [] → sc_stats stream = .ok ⟨endian, nbits, blocks⟩) := by
  constructor <;> intro hr <;> simp only [sc_stats] <;> rw [h1] <;>
    simp only [h2] <;> simp [hr]

/-- Witness for C8, both ways: the stream `[0x00, 0x00, 0xff]` (empty
header, stop marker, one trailing byte) fails the trailing check, and
`[0x00, 0x00]` passes it. -/
theorem c8_trailing_check_witness :
    (sc_decode_header [0, 0, 0xff] = .ok ("little", Int.ofNat 0, [0, 0xff]) ∧
      scLoopF 3 [0, 0xff] (fun _ => 0) = .ok (fun _ => 0, [0xff]) ∧
      sc_stats [0, 0, 0xff] = Except.error Err.assertionError) ∧
    (sc_decode_header [0, 0] = .ok ("little", Int.ofNat 0, [0]) ∧
      scLoopF 2 [0] (fun _ => 0) = .ok (fun _ => 0, []) ∧
      sc_stats [0, 0] = .ok ⟨"little", Int.ofNat 0, fun _ => 0⟩) :=
  ⟨⟨rfl, rfl,
    (c8_trailing_check [0, 0, 0xff] "little" (Int.ofNat 0) [0, 0xff]
      (fun _ => 0) [0xff] rfl rfl).1 (by simp)⟩,
   ⟨rfl, rfl,
    (c8_trailing_check [0, 0] "little" (Int.ofNat 0) [0]
      (fun _ => 0) [] rfl rfl).2 rfl⟩⟩

/-- A successful non-stop block step strictly shrinks the stream. -/
theorem sc_decode_block_length {s : List Nat} {b : Blocks} {s' : List Nat}
    {b' : Blocks} (h : sc_decode_block s b = .ok (true, s', b')) :
    s'.length < s.length := by
  match s with
  | [] => exact absurd h (by simp [sc_decode_block])
  | head :: rest =>
    simp only [sc_decode_block, sc_block_tally] at h
    split_ifs at h
    · simp at h
    · simp only [Except.ok.injEq, Prod.mk.injEq] at h
      obtain ⟨-, h2, -⟩ := h
      rw [← h2]
      simp only [List.length_drop, List.length_cons]
      omega
    · simp only [Except.ok.injEq, Prod.mk.injEq] at h
      obtain ⟨-, h2, -⟩ := h
      rw [← h2]
      simp only [List.length_drop, List.length_cons]
      omega
    · cases rest with
      | nil => simp at h
      | cons k rest2 =>
        simp only [Except.ok.injEq, Prod.mk.injEq] at h
        obtain ⟨-, h2, -⟩ := h
        rw [← h2]
        simp only [List.length_drop, List.length_cons]
        omega

/-- The loop fuel is irrelevant as soon as it exceeds the stream length,
so `sc_stats`'s choice of `length + 1` models the unbounded `while`. -/
theorem scLoopF_fuel (f1 f2 : Nat) (s : List Nat) (b : Blocks)
    (h1 : s.length < f1) (h2 : s.length < f2) :
    scLoopF f1 s b = scLoopF f2 s b := by
  induction f1 generalizing f2 s b with
  | zero => omega
  | succ g ih =>
    match f2, h2 with
    | g2 + 1, h2 =>
      simp only [scLoopF]
      match hd : sc_decode_block s b with
      | .error e => rfl
      | .ok (false, s', b') => rfl
      | .ok (true, s', b') =>
        have hlt := sc_decode_block_length hd
        exact ih g2 s' b' (by omega) (by omega)

/-- C10: header decoding bounds the length field only by the nibble: any
`L ≤ 15` length bytes are decoded to their exact little-endian value
(first conjunct), so a stream with fifteen `0xFF` length bytes is
accepted and the scanner reports `nbits = 2^120 - 1` unchanged (second
conjunct), a value exceeding the data model's `u64` (third conjunct). -/
theorem c10_nbits_unbounded :
    (∀ bytes rest : List Nat, bytes.length ≤ 15 → (∀ x ∈ bytes, x < 256) →
      sc_decode_header (bytes.length :: (bytes ++ rest)) =
        .ok ("little", Int.ofNat (leValN bytes), rest)) ∧
    sc_stats ((0x0f :: List.replicate 15 0xff) ++ [0]) =
      .ok ⟨"little", Int.ofNat (2 ^ 120 - 1), fun _ => 0⟩ ∧
    (2 : Int) ^ 64 ≤ Int.ofNat (2 ^ 120 - 1) := by
  refine ⟨?_, ?_, by norm_num⟩
  · intro bytes rest hL hbytes
    obtain ⟨he0, -, h0f⟩ := nibble_facts bytes.length hL
    simp only [sc_decode_header]
    rw [if_neg (by simpa using he0), h0f,
      read_n_ok bytes.length (bytes ++ rest)
        (by simp)
        (by rw [List.take_left]; exact hbytes),
      List.take_left, List.drop_left,
      if_neg (by simp [nibble_facts bytes.length hL])]
  · rfl

/-- Witness for C10's first conjunct. -/
theorem c10_nbits_unbounded_witness :
    (([0xff] : List Nat).length ≤ 15 ∧ ∀ x ∈ ([0xff] : List Nat), x < 256) ∧
    sc_decode_header [1, 0xff] = .ok ("little", Int.ofNat 255, []) :=
  ⟨⟨by decide, by decide⟩,
   c10_nbits_unbounded.1 [0xff] [] (by decide) (by decide)⟩

/-! ### Round-trip lemmas for the spec-modelled codec -/

theorem bytesLE_lt : ∀ (f n : Nat), ∀ x ∈ bytesLE f n, x < 256 := by
  intro f
  induction f with
  | zero => intro n x hx; simp [bytesLE] at hx
  | succ g ih =>
    intro n x hx
    by_cases hn : n = 0
    · simp [bytesLE, hn] at hx
    · simp only [bytesLE, if_neg hn, List.mem_cons] at hx
      rcases hx with hx | hx
      · omega
      · exact ih _ x hx

theorem bytesLE_length : ∀ (f n : Nat), (bytesLE f n).length ≤ f := by
  intro f
  induction f with
  | zero => intro n; simp [bytesLE]
  | succ g ih =>
    intro n
    by_cases hn : n = 0
    · simp [bytesLE, hn]
    · simp only [bytesLE, if_neg hn, List.length_cons]
      exact Nat.succ_le_succ (ih _)

theorem leValN_bytesLE : ∀ (f n : Nat), n < 256 ^ f → leValN (bytesLE f n) = n := by
  intro f
  induction f with
  | zero => intro n hn; interval_cases n; rfl
  | succ g ih =>
    intro n hn
    by_cases hn0 : n = 0
    · simp [bytesLE, hn0, leValN]
    · simp only [bytesLE, if_neg hn0, leValN]
      have hdiv : n / 256 < 256 ^ g := by
        rw [Nat.div_lt_iff_lt_mul (by norm_num)]
        calc n < 256 ^ (g + 1) := hn
          _ = 256 ^ g * 256 := by rw [pow_succ]
      rw [ih _ hdiv]
      omega

/-- Decoding the header that the modelled encoder emits recovers the bit
count and leaves exactly the block section. -/
theorem header_roundtrip (n : Nat) (tail : List Nat) (hn : n < 256 ^ 15) :
    sc_decode_header ((bytesLE 15 n).length :: (bytesLE 15 n ++ tail)) =
      .ok ("little", Int.ofNat n, tail) := by
  have hL : (bytesLE 15 n).length ≤ 15 := bytesLE_length 15 n
  obtain ⟨he0, hx10, h0f⟩ := nibble_facts (bytesLE 15 n).length hL
  simp only [sc_decode_header]
  rw [if_neg (by simpa using he0), h0f,
    read_n_ok (bytesLE 15 n).length (bytesLE 15 n ++ tail)
      (by simp)
      (by rw [List.take_left]; exact bytesLE_lt 15 n),
    List.take_left, List.drop_left, leValN_bytesLE 15 n hn,
    if_neg (by simp [hx10])]

/-- Decoding the Raw blocks that the modelled encoder emits recovers the
payload bytes and leaves exactly the bytes after the stop marker. -/
theorem decBlocks_encBlocks : ∀ (f : Nat) (bytes : List Nat) (g : Nat) (rest : List Nat),
    bytes.length ≤ f → (encBlocksF f bytes ++ 0 :: rest).length < g →
    decBlocksF g (encBlocksF f bytes ++ 0 :: rest) = .ok (bytes, rest) := by
  intro f
  induction f with
  | zero =>
    intro bytes g rest hf hg
    have hb : bytes = [] := List.eq_nil_of_length_eq_zero (by omega)
    subst hb
    cases g with
    | zero => exact absurd hg (by omega)
    | succ g' => rfl
  | succ f ih =>
    intro bytes g rest hf hg
    match bytes with
    | [] =>
      cases g with
      | zero => exact absurd hg (by omega)
      | succ g' => rfl
    | x :: bs =>
      cases g with
      | zero => exact absurd hg (by omega)
      | succ g' =>
        obtain ⟨h, hh⟩ : ∃ h, min 128 (x :: bs).length = h + 1 :=
          ⟨min 128 (x :: bs).length - 1, by simp⟩
        have hh128 : h + 1 ≤ 128 := by
          rw [← hh]; omega
        have htake : (List.take 128 (x :: bs)).length = h + 1 := by
          rw [List.length_take]; omega
        have henc : encBlocksF (f + 1) (x :: bs) ++ 0 :: rest =
            (h + 1) :: (List.take 128 (x :: bs) ++
              (encBlocksF f (List.drop 128 (x :: bs)) ++ 0 :: rest)) := by
          simp only [encBlocksF, hh, List.cons_append, List.append_assoc]
        rw [henc] at hg ⊢
        have hdroplen : (List.drop 128 (x :: bs)).length ≤ f := by
          simp only [List.length_cons] at hf
          simp only [List.length_drop, List.length_cons]
          omega
        have hg' : (encBlocksF f (List.drop 128 (x :: bs)) ++ 0 :: rest).length < g' := by
          simp only [List.length_cons, List.length_append, htake] at hg ⊢
          omega
        simp only [decBlocksF]
        rw [if_pos hh128,
          if_neg (show ¬ (List.take 128 (x :: bs) ++
              (encBlocksF f (List.drop 128 (x :: bs)) ++ 0 :: rest)).length < h + 1 by
            simp only [List.length_append, htake]; omega),
          List.drop_left' htake, List.take_left' htake,
          ih (List.drop 128 (x :: bs)) g' rest hdroplen hg']
        simp only [List.take_append_drop]

theorem bitsOfByteAux_zero : ∀ k, bitsOfByteAux k 0 = List.replicate k false := by
  intro k
  induction k with
  | zero => rfl
  | succ m ih => simp [bitsOfByteAux, ih, List.replicate_succ]

/-- Unpacking a packed byte recovers the bits, padded with `false` up to
width `k`. -/
theorem bitsOfByteAux_byteOfBits : ∀ (k : Nat) (l : List Bool), l.length ≤ k →
    bitsOfByteAux k (byteOfBits l) = l ++ List.replicate (k - l.length) false := by
  intro k
  induction k with
  | zero =>
    intro l hl
    have : l = [] := List.eq_nil_of_length_eq_zero (by omega)
    subst this
    rfl
  | succ m ih =>
    intro l hl
    match l with
    | [] =>
      simp only [byteOfBits, bitsOfByteAux_zero, List.nil_append]
      rfl
    | bit :: r =>
      have hmod : (cond bit 1 0 + 2 * byteOfBits r) % 2 = cond bit 1 0 := by
        cases bit <;> simp
      have hdiv : (cond bit 1 0 + 2 * byteOfBits r) / 2 = byteOfBits r := by
        cases bit <;> simp
        omega
      have hbit : decide ((cond bit 1 0 + 2 * byteOfBits r) % 2 = 1) = bit := by
        cases bit <;> simp [hmod]
      simp only [byteOfBits, bitsOfByteAux, hbit, hdiv,
        ih r (by simpa using hl), List.length_cons, List.cons_append,
        Nat.succ_sub_succ]

/-- Unpacking the packed payload yields the original bits followed by
fewer than eight `false` padding bits. -/
theorem bitsBytes_ofBits : ∀ (f : Nat) (a : List Bool), a.length ≤ f →
    bitsOfBytes (bytesOfBitsF f a) =
      a ++ List.replicate (8 * (bytesOfBitsF f a).length - a.length) false ∧
    a.length ≤ 8 * (bytesOfBitsF f a).length ∧
    8 * (bytesOfBitsF f a).length < a.length + 8 := by
  intro f
  induction f with
  | zero =>
    intro a ha
    have : a = [] := List.eq_nil_of_length_eq_zero (by omega)
    subst this
    exact ⟨rfl, by simp [bytesOfBitsF], by simp [bytesOfBitsF]⟩
  | succ g ih =>
    intro a ha
    match a with
    | [] => exact ⟨rfl, by simp [bytesOfBitsF], by simp [bytesOfBitsF]⟩
    | bit :: r =>
      have hlen8 : ((bit :: r).take 8).length ≤ 8 := by
        simp [List.length_take]
      have hdroplen : ((bit :: r).drop 8).length ≤ g := by
        simp only [List.length_drop, List.length_cons]
        simp only [List.length_cons] at ha
        omega
      obtain ⟨ih1, ih2, ih3⟩ := ih ((bit :: r).drop 8) hdroplen
      have hbytes : bytesOfBitsF (g + 1) (bit :: r) =
          byteOfBits ((bit :: r).take 8) :: bytesOfBitsF g ((bit :: r).drop 8) := rfl
      rw [hbytes]
      simp only [bitsOfBytes, List.length_cons]
      rw [bitsOfByteAux_byteOfBits 8 ((bit :: r).take 8) hlen8, ih1]
      by_cases hsmall : (bit :: r).length ≤ 8
      · have htake : (bit :: r).take 8 = bit :: r := List.take_of_length_le hsmall
        have hdrop : (bit :: r).drop 8 = [] := List.drop_eq_nil_of_le hsmall
        have hnil : bytesOfBitsF g ([] : List Bool) = [] := by cases g <;> rfl
        rw [htake, hdrop, hnil]
        simp only [List.length_nil, List.length_cons, Nat.mul_zero, Nat.sub_zero,
          List.replicate_zero, List.append_nil, List.nil_append, Nat.zero_add,
          Nat.mul_one, bitsOfBytes]
        simp only [List.length_cons] at hsmall
        refine ⟨trivial, by omega, by omega⟩
      · have htake : ((bit :: r).take 8).length = 8 := by
          simp only [List.length_take, List.length_cons]
          simp only [List.length_cons] at hsmall
          omega
        rw [htake]
        simp only [Nat.sub_self, List.replicate_zero, List.append_nil]
        simp only [List.length_cons] at hsmall
        simp only [List.length_drop, List.length_cons] at ih2 ih3
        refine ⟨?_, by omega, by omega⟩
        rw [← List.append_assoc, List.take_append_drop]
        congr 2
        simp only [List.length_drop, List.length_cons]
        omega

/-- A stream of the modelled encoder's shape decodes to the first `n`
unpacked payload bits. -/
theorem sc_decode_shape (n : Nat) (bytes : List Nat) (hn : n < 256 ^ 15)
    (hb1 : n ≤ 8 * bytes.length) (hb2 : 8 * bytes.length < n + 8) :
    sc_decode ((bytesLE 15 n).length ::
        (bytesLE 15 n ++ (encBlocksF bytes.length bytes ++ [0]))) =
      .ok ((bitsOfBytes bytes).take n) := by
  have hdec := decBlocks_encBlocks bytes.length bytes
    ((encBlocksF bytes.length bytes ++ [0]).length + 1) [] le_rfl (by omega)
  simp only [sc_decode]
  rw [header_roundtrip n _ hn]
  have htn : (Int.ofNat n).toNat = n := rfl
  simp only [hdec, htn, if_true]
  rw [if_pos ⟨hb1, hb2⟩]

/-- C2 (spec-modelled): decoding the encoding of a bit sequence returns
the sequence exactly; stated for any length below the format's
`2^120 - 1` cap, which covers every `u64` length of the data model,
including the empty sequence. -/
theorem c2_roundtrip (a : List Bool) (ha : a.length < 2 ^ 120) :
    sc_decode (sc_encode a) = .ok a := by
  have h256 : a.length < 256 ^ 15 := by
    have h : (256 : Nat) ^ 15 = 2 ^ 120 := by norm_num
    omega
  obtain ⟨hbits, hlo, hhi⟩ := bitsBytes_ofBits a.length a le_rfl
  have henc : sc_encode a =
      (bytesLE 15 a.length).length ::
        (bytesLE 15 a.length ++
          (encBlocksF (bytesOfBitsF a.length a).length (bytesOfBitsF a.length a) ++ [0])) := by
    simp [sc_encode]
  rw [henc, sc_decode_shape a.length (bytesOfBitsF a.length a) h256 hlo hhi, hbits,
    List.take_left]

/-- Witness for C2 at a concrete three-bit sequence. -/
theorem c2_roundtrip_witness :
    ([true, false, true] : List Bool).length < 2 ^ 120 ∧
    sc_decode (sc_encode [true, false, true]) = .ok [true, false, true] :=
  ⟨by norm_num, c2_roundtrip [true, false, true] (by norm_num)⟩
